import Mathlib

/-!
Verification development for the Monte Carlo move-selection engine in
`src/techniques/monte_carlo.py`.

The Python module is dynamically typed: board states, moves and `None` all
serve as dictionary keys and are compared by value.  We embed the relevant
fragment of Python's value universe as an inductive type `PyVal` (ints,
2-tuples, `None`), model `collections.defaultdict(float)` /
`defaultdict(int)` tables as insertion-ordered association lists over `ℚ`
(every number the module manipulates is a dyadic rational, so `ℚ` is exact),
model `random.choice` by an explicit stream of natural-number draws, and use
explicit fuel for the unbounded recursion/looping; a result of `none` marks a
Python exception or non-termination.  The game rules object (`game_spec`) is
an external collaborator and is kept abstract as a structure of functions.
The neural-network-guided mode (`policy = True`), which needs the external
TensorFlow session, is outside the embedded fragment; all definitions model
the default `policy = False` paths.
-/

/-- Embedded Python values as they appear as dictionary keys / board states /
moves in `monte_carlo.py`: `None`, integers, and (nested) 2-tuples. -/
inductive PyVal where
  | pynone : PyVal
  | pyint : Int → PyVal
  | pair : PyVal → PyVal → PyVal
deriving DecidableEq, Repr

/-- A Python dict with `ℚ` values, as an insertion-ordered association list. -/
abbrev Dict := List (PyVal × ℚ)

/-- Dictionary read with `defaultdict` semantics: a missing key reads as `0`. -/
def dget : Dict → PyVal → ℚ
  | [], _ => 0
  | (k, v) :: rest, key => if key = k then v else dget rest key

/-- Python `key in dict` membership test. -/
def dmem : Dict → PyVal → Bool
  | [], _ => false
  | (k, _) :: rest, key => key = k || dmem rest key

/-- `defaultdict` update `d[key] += v`: updates in place, or appends the new
key at the end (Python dicts preserve insertion order). -/
def dincr : Dict → PyVal → ℚ → Dict
  | [], key, v => [(key, v)]
  | (k, w) :: rest, key, v =>
      if key = k then (k, w + v) :: rest else (k, w) :: dincr rest key v

/-- Iteration order of a Python dict: its keys in insertion order. -/
def dkeys (d : Dict) : List PyVal := d.map Prod.fst

/-- Python division on numbers: raises `ZeroDivisionError` (here `none`) when
the divisor is zero. -/
def pydiv (a b : ℚ) : Option ℚ := if b = 0 then none else some (a / b)

/-- `random.choice(l)` driven by one natural-number draw `r` from the RNG
stream: picks index `r % len(l)`.  On the empty list (never reached on the
guarded call sites) it returns `None`. -/
def pyChoice (l : List PyVal) (r : ℕ) : PyVal :=
  match l with
  | [] => PyVal.pynone
  | x :: xs => (x :: xs).get ⟨r % (x :: xs).length, Nat.mod_lt _ (Nat.succ_pos _)⟩

/-- Python tuple unpacking `a, b = v`: succeeds only on a 2-tuple, otherwise
raises `TypeError` (here `none`). -/
def pyUnpack2 : PyVal → Option (PyVal × PyVal)
  | PyVal.pair a b => some (a, b)
  | _ => none

/-- Python `max(l, key=f)` on numeric scores: first element with the maximal
score (later elements replace the champion only on a strictly greater score);
`max` of an empty sequence raises, hence `none`. -/
def argmaxBy (f : PyVal → ℚ) : List PyVal → Option PyVal
  | [] => none
  | x :: xs => some (xs.foldl (fun best y => if f best < f y then y else best) x)

/-- Python `min(l, key=f)`: first element with the minimal score. -/
def argminBy (f : PyVal → ℚ) : List PyVal → Option PyVal
  | [] => none
  | x :: xs => some (xs.foldl (fun best y => if f y < f best then y else best) x)

/-- Keys of a Python dict comprehension in insertion order: duplicates keep
their first position (auxiliary, with an accumulator of keys already seen). -/
def dedupFirstAux : List PyVal → List PyVal → List PyVal
  | [], _ => []
  | x :: xs, seen =>
      if x ∈ seen then dedupFirstAux xs seen else x :: dedupFirstAux xs (x :: seen)

/-- Keys of a Python dict comprehension in insertion order. -/
def dedupFirst (l : List PyVal) : List PyVal := dedupFirstAux l []

/-- The external game rules collaborator (`BaseGameSpec`): terminal test
(`None` when the game is not over), legal-move enumeration in a fixed order,
and move application.  States and moves are Python values. -/
structure GameSpec where
  has_winner : PyVal → Option Int
  available_moves : PyVal → List PyVal
  apply_move : PyVal → PyVal → Int → PyVal

/-- `_monte_carlo_sample(game_spec, board_state, side)` (non-policy mode,
lines 21-39): one random rollout.  Terminal state: return `(result, None)`.
No legal moves: return `(0, None)`.  Otherwise pick a random move, recurse on
the resulting state with the side negated, and return the recursion's result
paired with the move chosen at this level.  The RNG stream is threaded
through; `fuel` bounds the recursion depth (`none` = non-termination). -/
def _monte_carlo_sample (g : GameSpec) :
    ℕ → PyVal → Int → List ℕ → Option (Int × PyVal × List ℕ)
  | 0, _, _, _ => none
  | fuel + 1, board_state, side, rng =>
    match g.has_winner board_state with
    | some result => some (result, PyVal.pynone, rng)
    | none =>
      let moves := g.available_moves board_state
      if moves.isEmpty then some (0, PyVal.pynone, rng)
      else
        let move := pyChoice moves (rng.headD 0)
        match _monte_carlo_sample g fuel (g.apply_move board_state move side) (-side) rng.tail with
        | none => none
        | some (result, _, rng2) => some (result, move, rng2)

/-- The rollout loop of `monte_carlo_tree_search` (lines 56-64): run the given
number of rollouts from the root, accumulating `move_wins` (incremented when
the rollout result equals `side`) and `move_samples`, and remembering the
last rollout's move (the Python variable `move` left over from the loop,
`none` while still unbound). -/
def flatLoop (g : GameSpec) (fuel : ℕ) (board_state : PyVal) (side : Int) :
    ℕ → Dict → Dict → Option PyVal → List ℕ →
    Option (Dict × Dict × Option PyVal × List ℕ)
  | 0, move_wins, move_samples, lastMove, rng => some (move_wins, move_samples, lastMove, rng)
  | n + 1, move_wins, move_samples, lastMove, rng =>
    match _monte_carlo_sample g fuel board_state side rng with
    | none => none
    | some (result, move, rng2) =>
      let move_wins' := if result = side then dincr move_wins move 1 else move_wins
      let move_samples' := dincr move_samples move 1
      flatLoop g fuel board_state side n move_wins' move_samples' (some move) rng2

/-- Move selection of `monte_carlo_tree_search` (lines 66-76, non-policy):
if `move_wins` is empty, take the least-sampled move; otherwise take
`max(move_wins, key=lambda x: move_wins.get(x) / move_samples[move])` where
`move` is the leftover loop variable (`lastMove`; unbound `move` raises
`NameError`, a zero denominator raises `ZeroDivisionError`).  Returns
`(move_wins[move] / move_samples[move], move)`. -/
def flatFinish (move_wins move_samples : Dict) (lastMove : Option PyVal) :
    Option (ℚ × PyVal) :=
  if move_wins.isEmpty then
    match argminBy (fun m => dget move_samples m) (dkeys move_samples) with
    | none => none
    | some move => (pydiv (dget move_wins move) (dget move_samples move)).map (fun c => (c, move))
  else
    match lastMove with
    | none => none
    | some lm =>
      if dget move_samples lm = 0 then none
      else
        match argmaxBy (fun x => dget move_wins x / dget move_samples lm) (dkeys move_wins) with
        | none => none
        | some move =>
            (pydiv (dget move_wins move) (dget move_samples move)).map (fun c => (c, move))

/-- `monte_carlo_tree_search(game_spec, board_state, side, number_of_samples)`
(lines 42-76, non-policy mode): flat Monte Carlo search. -/
def monte_carlo_tree_search (g : GameSpec) (fuel : ℕ) (board_state : PyVal)
    (side : Int) (number_of_samples : ℕ) (rng : List ℕ) : Option (ℚ × PyVal) :=
  match flatLoop g fuel board_state side number_of_samples [] [] none rng with
  | none => none
  | some (move_wins, move_samples, lastMove, _) => flatFinish move_wins move_samples lastMove

/-- `_upper_confidence_bounds(payout, samples_for_this_machine,
log_total_samples)` (lines 79-80), over the reals. -/
noncomputable def _upper_confidence_bounds (payout samples_for_this_machine log_total_samples : ℝ) : ℝ :=
  payout / samples_for_this_machine +
    Real.sqrt ((2 * log_total_samples) / samples_for_this_machine)

/-- The UCB1 exploration bonus `sqrt(2 * ln(total) / n)` as computed through
`_upper_confidence_bounds` with payout `0` and `log_total_samples =
ln(total)`. -/
noncomputable def ucbBonus (total n : ℕ) : ℝ :=
  _upper_confidence_bounds 0 n (Real.log total)

/-- The dict comprehension `move_states = {move: apply_move(state, move, side)
for move in available_moves(state)}` (lines 108-109 and 142): insertion-ordered
key/value pairs, duplicate moves keeping their first position. -/
def mkMoveStates (g : GameSpec) (s : PyVal) (side : Int) : List (PyVal × PyVal) :=
  (dedupFirst (g.available_moves s)).map (fun m => (m, g.apply_move s m side))

/-- Lookup `move_states[move]` (used on keys of the dict, so the default
branch is unreachable on the guarded call sites). -/
def msLookup (ms : List (PyVal × PyVal)) (m : PyVal) : PyVal :=
  match ms.find? (fun p => p.1 = m) with
  | some p => p.2
  | none => PyVal.pynone

/-- The descent-loop guard `all((state in state_samples) for _, state in
move_states)` (line 115).  Iterating a Python dict yields its KEYS, so each
key (a move) is tuple-unpacked into `_, state` — a `TypeError` (`none`) unless
the key is a 2-tuple — and the membership test is applied to the move's second
component, not to the child board state.  `all` short-circuits at the first
`False`. -/
def evalAllCond (state_samples : Dict) : List PyVal → Option Bool
  | [] => some true
  | k :: ks =>
    match pyUnpack2 k with
    | none => none
    | some (_, state) =>
        if dmem state_samples state then evalAllCond state_samples ks else some false

/-- The descent (`while result == None`) loop of one iteration of
`monte_carlo_tree_search_uct` (lines 100-132): walk down from the current
state, recording `(child_state, side)` on the rollout path while still inside
visited territory.  When the guard of line 115 is `True`, line 117 calls
`max(move_states, key=lambda _, s: ...)`, which passes a single argument (a
dict key) to a two-parameter lambda and raises `TypeError` (`none`); when the
guard itself raises while unpacking, the same.  Otherwise the move is drawn
uniformly at random from the dict's keys (line 121).  Returns the terminal
result, the rollout path and the remaining RNG stream. -/
def uctDescend (g : GameSpec) (state_samples : Dict) :
    ℕ → PyVal → Int → Bool → List (PyVal × Int) → List ℕ →
    Option (Int × List (PyVal × Int) × List ℕ)
  | 0, _, _, _, _, _ => none
  | fuel + 1, current_board_state, current_side, first_unvisited_node, rollout_path, rng =>
    let ms := mkMoveStates g current_board_state current_side
    if ms.isEmpty then some (0, rollout_path, rng)
    else
      match evalAllCond state_samples (ms.map Prod.fst) with
      | none => none
      | some true => none
      | some false =>
        let move := pyChoice (ms.map Prod.fst) (rng.headD 0)
        let child := msLookup ms move
        let rollout_path' :=
          if first_unvisited_node then rollout_path ++ [(child, current_side)] else rollout_path
        let first_unvisited_node' := first_unvisited_node && dmem state_samples child
        match g.has_winner child with
        | some result => some (result, rollout_path', rng.tail)
        | none => uctDescend g state_samples fuel child (-current_side)
            first_unvisited_node' rollout_path' rng.tail

/-- The backup loop of `monte_carlo_tree_search_uct` (lines 134-140): walk the
rollout path in order; at each entry increment `state_samples[path_state]` by
1, then mutate the running `result` by `result *= path_side; result /= 2;
result += .5`, and add the mutated value to `state_results[path_state]`.
Returns `(state_results, state_samples)`. -/
def backup : List (PyVal × Int) → ℚ → Dict → Dict → Dict × Dict
  | [], _, state_results, state_samples => (state_results, state_samples)
  | (path_board_state, path_side) :: rest, result, state_results, state_samples =>
    let state_samples' := dincr state_samples path_board_state 1
    let result' := result * (path_side : ℚ) / 2 + 1/2
    let state_results' := dincr state_results path_board_state result'
    backup rest result' state_results' state_samples'

/-- The successive values the backup loop adds to `state_results`, one per
rollout-path entry, as a function of the initial terminal result and the
successive path sides: each entry transforms the running value by
`v * side / 2 + 1/2`. -/
def backupValues : ℚ → List Int → List ℚ
  | _, [] => []
  | result, side :: rest =>
    let result' := result * (side : ℚ) / 2 + 1/2
    result' :: backupValues result' rest

/-- The `for _ in range(number_of_samples)` loop of
`monte_carlo_tree_search_uct` (lines 100-140): each iteration descends from
the root and backs the terminal result up along its rollout path. -/
def uctLoop (g : GameSpec) (fuel : ℕ) (board_state : PyVal) (side : Int) :
    ℕ → Dict → Dict → List ℕ → Option (Dict × Dict × List ℕ)
  | 0, state_results, state_samples, rng => some (state_results, state_samples, rng)
  | n + 1, state_results, state_samples, rng =>
    match uctDescend g state_samples fuel board_state side true [] rng with
    | none => none
    | some (result, rollout_path, rng2) =>
      let rs := backup rollout_path (result : ℚ) state_results state_samples
      uctLoop g fuel board_state side n rs.1 rs.2 rng2

/-- The ranking score of the final selection (line 145):
`state_results[move_states[x]] / (state_samples[move_states[x]] if
state_samples[move_states[x]] > 0 else 10e3)`. -/
def uctScore (state_results state_samples : Dict) (ms : List (PyVal × PyVal)) (x : PyVal) : ℚ :=
  dget state_results (msLookup ms x) /
    (if 0 < dget state_samples (msLookup ms x) then dget state_samples (msLookup ms x) else 10000)

/-- The final selection of `monte_carlo_tree_search_uct` (lines 142-147):
rebuild the root's `move_states`, take the move maximizing the guarded ratio
of line 145, and return `(state_results[child] / state_samples[child], move)`
— the confidence division of line 147 is unguarded and raises
`ZeroDivisionError` (`none`) when the chosen child has zero samples. -/
def uctFinalSelect (g : GameSpec) (board_state : PyVal) (side : Int)
    (state_results state_samples : Dict) : Option (ℚ × PyVal) :=
  let ms := mkMoveStates g board_state side
  match argmaxBy (uctScore state_results state_samples ms) (ms.map Prod.fst) with
  | none => none
  | some move =>
      (pydiv (dget state_results (msLookup ms move)) (dget state_samples (msLookup ms move))).map
        (fun c => (c, move))

/-- `monte_carlo_tree_search_uct(game_spec, board_state, side,
number_of_samples)` (lines 83-147). -/
def monte_carlo_tree_search_uct (g : GameSpec) (fuel : ℕ) (board_state : PyVal)
    (side : Int) (number_of_samples : ℕ) (rng : List ℕ) : Option (ℚ × PyVal) :=
  match uctLoop g fuel board_state side number_of_samples [] [] rng with
  | none => none
  | some (state_results, state_samples, _) =>
      uctFinalSelect g board_state side state_results state_samples

/-! ### Concrete game instances used as inputs

Tiny explicit game rules objects, of the shape the engine consumes: states
are Python ints, moves are Python values (2-tuples of ints where tuple shape
matters, as in tic-tac-toe), and all functions are total. -/

/-- State `0` of game `G1` (the root). -/
def g1s0 : PyVal := PyVal.pyint 0

/-- State `1` of game `G1`: the child reached by move `g1mA`, a win for `+1`. -/
def g1sA : PyVal := PyVal.pyint 1

/-- State `2` of game `G1`: the child reached by move `g1mB`, a win for `-1`. -/
def g1sB : PyVal := PyVal.pyint 2

/-- Move `(10, 11)` of game `G1`. -/
def g1mA : PyVal := PyVal.pair (PyVal.pyint 10) (PyVal.pyint 11)

/-- Move `(12, 13)` of game `G1`. -/
def g1mB : PyVal := PyVal.pair (PyVal.pyint 12) (PyVal.pyint 13)

/-- Game `G1`: from the root `g1s0` the two moves `g1mA`, `g1mB` lead to the
terminal states `g1sA` (winner `+1`) and `g1sB` (winner `-1`). -/
def G1 : GameSpec where
  has_winner s := if s = g1sA then some 1 else if s = g1sB then some (-1) else none
  available_moves s := if s = g1s0 then [g1mA, g1mB] else []
  apply_move s m _ :=
    if s = g1s0 then (if m = g1mA then g1sA else g1sB) else s

/-- Move `a` of game `G2`. -/
def g2a : PyVal := PyVal.pyint 10

/-- Move `b` of game `G2`. -/
def g2b : PyVal := PyVal.pyint 11

/-- Move `c` of game `G2`. -/
def g2c : PyVal := PyVal.pyint 12

/-- Move `d` of game `G2`. -/
def g2d : PyVal := PyVal.pyint 13

/-- Game `G2`, for the flat search: root `0` with moves `a` (to state `1`)
and `b` (to state `2`, immediate `+1` win); state `1` with moves `c` (to
state `3`, a `+1` win) and `d` (to state `4`, a `-1` win). -/
def G2 : GameSpec where
  has_winner s :=
    if s = PyVal.pyint 2 then some 1
    else if s = PyVal.pyint 3 then some 1
    else if s = PyVal.pyint 4 then some (-1)
    else none
  available_moves s :=
    if s = PyVal.pyint 0 then [g2a, g2b]
    else if s = PyVal.pyint 1 then [g2c, g2d]
    else []
  apply_move s m _ :=
    if s = PyVal.pyint 0 then (if m = g2a then PyVal.pyint 1 else PyVal.pyint 2)
    else if s = PyVal.pyint 1 then (if m = g2c then PyVal.pyint 3 else PyVal.pyint 4)
    else s

/-- Root state of game `G3`. -/
def g3R : PyVal := PyVal.pyint 0

/-- Intermediate state of game `G3`. -/
def g3C1 : PyVal := PyVal.pyint 1

/-- Terminal state of game `G3` (winner `-1`). -/
def g3C2 : PyVal := PyVal.pyint 2

/-- The single move out of the root of `G3`. -/
def g3m1 : PyVal := PyVal.pair (PyVal.pyint 10) (PyVal.pyint 10)

/-- The single move out of `g3C1` in `G3`. -/
def g3m2 : PyVal := PyVal.pair (PyVal.pyint 11) (PyVal.pyint 11)

/-- Game `G3`, a forced two-move line: root `g3R` → `g3C1` → `g3C2`, where
`g3C2` is a win for `-1`.  Used to exhibit a rollout path of length two. -/
def G3 : GameSpec where
  has_winner s := if s = g3C2 then some (-1) else none
  available_moves s := if s = g3R then [g3m1] else if s = g3C1 then [g3m2] else []
  apply_move s m _ := if s = g3R then g3C1 else if s = g3C1 then g3C2 else s

/-! ### Helper lemmas about the dictionary and selection primitives -/

theorem dget_dincr (d : Dict) (key : PyVal) (v : ℚ) (q : PyVal) :
    dget (dincr d key v) q = dget d q + if q = key then v else 0 := by
  induction d with
  | nil =>
    by_cases h : q = key <;> simp [dincr, dget, h]
  | cons p rest ih =>
    obtain ⟨k0, w⟩ := p
    by_cases hk : key = k0
    · subst hk
      by_cases hq : q = key <;> simp [dincr, dget, hq]
    · by_cases hq : q = k0
      · subst hq
        have hqk : ¬ q = key := fun h => hk h.symm
        simp [dincr, hk, dget, hqk]
      · simp [dincr, hk, dget, hq, ih]

theorem mem_dkeys_dincr (d : Dict) (key : PyVal) (v : ℚ) (x : PyVal)
    (hx : x ∈ dkeys (dincr d key v)) : x ∈ dkeys d ∨ x = key := by
  induction d with
  | nil =>
    simp [dincr, dkeys] at hx
    exact Or.inr hx
  | cons p rest ih =>
    obtain ⟨k0, w⟩ := p
    by_cases hk : key = k0
    · subst hk
      simp [dincr, dkeys] at hx ⊢
      rcases hx with h | h
      · exact Or.inl (Or.inl h)
      · exact Or.inl (Or.inr h)
    · simp [dincr, hk, dkeys] at hx ⊢
      rcases hx with h | h
      · exact Or.inl (Or.inl h)
      · rcases ih (by simpa [dkeys] using h) with h2 | h2
        · exact Or.inl (Or.inr (by simpa [dkeys] using h2))
        · exact Or.inr h2

theorem foldlMax_mem (f : PyVal → ℚ) :
    ∀ (xs : List PyVal) (a : PyVal),
      xs.foldl (fun best y => if f best < f y then y else best) a ∈ a :: xs := by
  intro xs
  induction xs with
  | nil => intro a; simp
  | cons x xs ih =>
    intro a
    simp only [List.foldl_cons]
    rcases List.mem_cons.1 (ih (if f a < f x then x else a)) with h | h
    · rw [h]
      by_cases hc : f a < f x <;> simp [hc]
    · simp [h]

theorem argmaxBy_mem (f : PyVal → ℚ) (l : List PyVal) (m : PyVal)
    (h : argmaxBy f l = some m) : m ∈ l := by
  cases l with
  | nil => simp [argmaxBy] at h
  | cons x xs =>
    simp only [argmaxBy, Option.some.injEq] at h
    have := foldlMax_mem f xs x
    rw [h] at this
    exact this

theorem foldlMin_mem (f : PyVal → ℚ) :
    ∀ (xs : List PyVal) (a : PyVal),
      xs.foldl (fun best y => if f y < f best then y else best) a ∈ a :: xs := by
  intro xs
  induction xs with
  | nil => intro a; simp
  | cons x xs ih =>
    intro a
    simp only [List.foldl_cons]
    rcases List.mem_cons.1 (ih (if f x < f a then x else a)) with h | h
    · rw [h]
      by_cases hc : f x < f a <;> simp [hc]
    · simp [h]

theorem argminBy_mem (f : PyVal → ℚ) (l : List PyVal) (m : PyVal)
    (h : argminBy f l = some m) : m ∈ l := by
  cases l with
  | nil => simp [argminBy] at h
  | cons x xs =>
    simp only [argminBy, Option.some.injEq] at h
    have := foldlMin_mem f xs x
    rw [h] at this
    exact this

theorem foldlMin_le (f : PyVal → ℚ) :
    ∀ (xs : List PyVal) (a : PyVal),
      f (xs.foldl (fun best y => if f y < f best then y else best) a) ≤ f a ∧
      ∀ x ∈ xs, f (xs.foldl (fun best y => if f y < f best then y else best) a) ≤ f x := by
  intro xs
  induction xs with
  | nil => intro a; simp
  | cons x xs ih =>
    intro a
    simp only [List.foldl_cons]
    have h := ih (if f x < f a then x else a)
    have hba : f (if f x < f a then x else a) ≤ f a := by
      by_cases hc : f x < f a <;> simp [hc]; exact le_of_lt hc
    have hbx : f (if f x < f a then x else a) ≤ f x := by
      by_cases hc : f x < f a <;> simp [hc]; exact le_of_not_lt hc
    refine ⟨le_trans h.1 hba, ?_⟩
    intro y hy
    rcases List.mem_cons.1 hy with rfl | hy2
    · exact le_trans h.1 hbx
    · exact h.2 y hy2

theorem argminBy_le (f : PyVal → ℚ) (l : List PyVal) (m : PyVal)
    (h : argminBy f l = some m) : ∀ x ∈ l, f m ≤ f x := by
  cases l with
  | nil => simp [argminBy] at h
  | cons x xs =>
    simp only [argminBy, Option.some.injEq] at h
    have := foldlMin_le f xs x
    rw [h] at this
    intro y hy
    rcases List.mem_cons.1 hy with rfl | hy2
    · exact this.1
    · exact this.2 y hy2

theorem pyChoice_mem (l : List PyVal) (r : ℕ) (h : l ≠ []) : pyChoice l r ∈ l := by
  cases l with
  | nil => exact absurd rfl h
  | cons x xs => exact List.get_mem _ _ _

theorem dedupFirstAux_subset :
    ∀ (l seen : List PyVal) (y : PyVal), y ∈ dedupFirstAux l seen → y ∈ l := by
  intro l
  induction l with
  | nil => intro seen y hy; simp [dedupFirstAux] at hy
  | cons x xs ih =>
    intro seen y hy
    by_cases hx : x ∈ seen
    · simp [dedupFirstAux, hx] at hy
      exact List.mem_cons_of_mem _ (ih seen y hy)
    · simp [dedupFirstAux, hx] at hy
      rcases hy with rfl | hy2
      · exact List.mem_cons_self _ _
      · exact List.mem_cons_of_mem _ (ih (x :: seen) y hy2)

theorem dedupFirst_subset (l : List PyVal) (y : PyVal) (hy : y ∈ dedupFirst l) : y ∈ l :=
  dedupFirstAux_subset l [] y hy

theorem sample_move_mem (g : GameSpec) (fuel : ℕ) (s : PyVal) (side : Int) (rng : List ℕ)
    (res : Int) (mv : PyVal) (rng2 : List ℕ)
    (h : _monte_carlo_sample g fuel s side rng = some (res, mv, rng2))
    (hterm : g.has_winner s = none) (hmoves : g.available_moves s ≠ []) :
    mv ∈ g.available_moves s := by
  cases fuel with
  | zero => simp [_monte_carlo_sample] at h
  | succ n =>
    rw [_monte_carlo_sample, hterm] at h
    cases hml : g.available_moves s with
    | nil => exact absurd hml hmoves
    | cons a as =>
      rw [hml] at h
      simp only [List.isEmpty_cons, if_false, Bool.false_eq_true] at h
      cases hrec : _monte_carlo_sample g n (g.apply_move s (pyChoice (a :: as) (rng.headD 0)) side)
          (-side) rng.tail with
      | none => rw [hrec] at h; exact absurd h (by simp)
      | some t =>
        obtain ⟨r2, mv2, rng3⟩ := t
        rw [hrec] at h
        simp only [Option.some.injEq, Prod.mk.injEq] at h
        rw [← h.2.1]
        exact pyChoice_mem _ _ (by simp)

theorem flatLoop_keys (g : GameSpec) (fuel : ℕ) (root : PyVal) (side : Int)
    (hterm : g.has_winner root = none) (hmoves : g.available_moves root ≠ []) :
    ∀ (N : ℕ) (wins samples : Dict) (lm : Option PyVal) (rng : List ℕ)
      (out : Dict × Dict × Option PyVal × List ℕ),
      flatLoop g fuel root side N wins samples lm rng = some out →
      (∀ k ∈ dkeys wins, k ∈ g.available_moves root) →
      (∀ k ∈ dkeys samples, k ∈ g.available_moves root) →
      (∀ k ∈ dkeys out.1, k ∈ g.available_moves root) ∧
      (∀ k ∈ dkeys out.2.1, k ∈ g.available_moves root) := by
  intro N
  induction N with
  | zero =>
    intro wins samples lm rng out h hw hs
    simp only [flatLoop, Option.some.injEq] at h
    rw [← h]
    exact ⟨hw, hs⟩
  | succ n ih =>
    intro wins samples lm rng out h hw hs
    rw [flatLoop] at h
    cases hrec : _monte_carlo_sample g fuel root side rng with
    | none => rw [hrec] at h; exact absurd h (by simp)
    | some t =>
      obtain ⟨r, mv, rng2⟩ := t
      rw [hrec] at h
      simp only at h
      have hmv : mv ∈ g.available_moves root := sample_move_mem g fuel root side rng r mv rng2 hrec hterm hmoves
      refine ih _ _ _ _ _ h ?_ ?_
      · intro k hk
        by_cases hr : r = side
        · simp only [hr, if_pos rfl] at hk
          rcases mem_dkeys_dincr wins mv 1 k hk with h2 | h2
          · exact hw k h2
          · exact h2 ▸ hmv
        · rw [if_neg hr] at hk
          exact hw k hk
      · intro k hk
        rcases mem_dkeys_dincr samples mv 1 k hk with h2 | h2
        · exact hs k h2
        · exact h2 ▸ hmv

theorem dincr_one_all_ge_one (d : Dict) (key : PyVal)
    (hd : ∀ p ∈ d, (1:ℚ) ≤ p.2) : ∀ p ∈ dincr d key 1, (1:ℚ) ≤ p.2 := by
  induction d with
  | nil => intro p hp; simp [dincr] at hp; simp [hp]
  | cons q rest ih =>
    obtain ⟨k0, w⟩ := q
    intro p hp
    by_cases hk : key = k0
    · subst hk
      simp only [dincr, if_pos rfl] at hp
      rcases List.mem_cons.1 hp with rfl | hp2
      · have : (1:ℚ) ≤ w := hd (key, w) (List.mem_cons_self _ _)
        simp only
        linarith
      · exact hd p (List.mem_cons_of_mem _ hp2)
    · simp only [dincr, if_neg hk] at hp
      rcases List.mem_cons.1 hp with rfl | hp2
      · exact hd (k0, w) (List.mem_cons_self _ _)
      · exact ih (fun q hq => hd q (List.mem_cons_of_mem _ hq)) p hp2

theorem flatLoop_wins_ge_one (g : GameSpec) (fuel : ℕ) (root : PyVal) (side : Int) :
    ∀ (N : ℕ) (wins samples : Dict) (lm : Option PyVal) (rng : List ℕ)
      (out : Dict × Dict × Option PyVal × List ℕ),
      flatLoop g fuel root side N wins samples lm rng = some out →
      (∀ p ∈ wins, (1:ℚ) ≤ p.2) →
      ∀ p ∈ out.1, (1:ℚ) ≤ p.2 := by
  intro N
  induction N with
  | zero =>
    intro wins samples lm rng out h hw
    simp only [flatLoop, Option.some.injEq] at h
    rw [← h]
    exact hw
  | succ n ih =>
    intro wins samples lm rng out h hw
    rw [flatLoop] at h
    cases hrec : _monte_carlo_sample g fuel root side rng with
    | none => rw [hrec] at h; exact absurd h (by simp)
    | some t =>
      obtain ⟨r, mv, rng2⟩ := t
      rw [hrec] at h
      simp only at h
      refine ih _ _ _ _ _ h ?_
      by_cases hr : r = side
      · rw [if_pos hr]
        exact dincr_one_all_ge_one wins mv hw
      · rw [if_neg hr]
        exact hw

theorem dget_head (k0 : PyVal) (v0 : ℚ) (rest : Dict) : dget ((k0, v0) :: rest) k0 = v0 := by
  simp [dget]

theorem dget_mem_of_all_ge_one (d : Dict) (hd : ∀ p ∈ d, (1:ℚ) ≤ p.2)
    (k : PyVal) (hk : k ∈ dkeys d) : (1:ℚ) ≤ dget d k := by
  induction d with
  | nil => simp [dkeys] at hk
  | cons q rest ih =>
    obtain ⟨k0, v0⟩ := q
    by_cases hkk : k = k0
    · subst hkk
      rw [dget_head]
      exact hd (k, v0) (List.mem_cons_self _ _)
    · simp only [dkeys, List.map_cons, List.mem_cons] at hk
      rcases hk with h | h
      · exact absurd h hkk
      · rw [show dget ((k0, v0) :: rest) k = dget rest k by simp [dget, hkk]]
        exact ih (fun q hq => hd q (List.mem_cons_of_mem _ hq)) h

theorem backup_dget (path : List (PyVal × Int)) :
    ∀ (r : ℚ) (res samp : Dict) (key : PyVal),
      dget (backup path r res samp).2 key =
        dget samp key + ((path.filter (fun p => p.1 == key)).length : ℚ) ∧
      dget (backup path r res samp).1 key =
        dget res key +
          ((((path.map Prod.fst).zip (backupValues r (path.map Prod.snd))).filter
              (fun p => p.1 == key)).map Prod.snd).sum := by
  induction path with
  | nil => intro r res samp key; simp [backup, backupValues]
  | cons e rest ih =>
    obtain ⟨s, σ⟩ := e
    intro r res samp key
    have hmain := ih (r * (σ:ℚ) / 2 + 1/2) (dincr res s (r * (σ:ℚ) / 2 + 1/2))
      (dincr samp s 1) key
    constructor
    · rw [show backup ((s, σ) :: rest) r res samp =
          backup rest (r * (σ:ℚ) / 2 + 1/2) (dincr res s (r * (σ:ℚ) / 2 + 1/2))
            (dincr samp s 1) from rfl]
      rw [hmain.1, dget_dincr]
      by_cases hs : s = key
      · subst hs
        simp only [List.filter_cons, beq_self_eq_true, if_true, List.length_cons, if_pos rfl]
        simp
        ring
      · have hb : (s == key) = false := beq_eq_false_iff_ne.2 hs
        have hk : ¬ key = s := fun h => hs h.symm
        simp only [List.filter_cons, hb, Bool.false_eq_true, if_false, hk]
        ring
    · rw [show backup ((s, σ) :: rest) r res samp =
          backup rest (r * (σ:ℚ) / 2 + 1/2) (dincr res s (r * (σ:ℚ) / 2 + 1/2))
            (dincr samp s 1) from rfl]
      rw [hmain.2, dget_dincr]
      rw [show backupValues r (((s, σ) :: rest).map Prod.snd) =
          (r * (σ:ℚ) / 2 + 1/2) :: backupValues (r * (σ:ℚ) / 2 + 1/2) (rest.map Prod.snd)
          from rfl]
      by_cases hs : s = key
      · subst hs
        simp only [List.map_cons, List.zip_cons_cons, List.filter_cons, beq_self_eq_true,
          if_true, List.sum_cons, if_pos rfl]
        simp
        ring
      · have hbeq : (s == key) = false := beq_eq_false_iff_ne.2 hs
        have hkey : ¬ key = s := fun h => hs h.symm
        simp only [List.map_cons, List.zip_cons_cons, List.filter_cons, hbeq,
          Bool.false_eq_true, if_false, hkey]
        ring

theorem backupValues_bounds :
    ∀ (sides : List Int) (r : ℚ), -1 ≤ r → r ≤ 1 →
      (∀ σ ∈ sides, σ = 1 ∨ σ = -1) →
      ∀ v ∈ backupValues r sides, 0 ≤ v ∧ v ≤ 1 := by
  intro sides
  induction sides with
  | nil => intro r _ _ _ v hv; simp [backupValues] at hv
  | cons σ rest ih =>
    intro r hr1 hr2 hσ v hv
    have hσ0 : σ = 1 ∨ σ = -1 := hσ σ (List.mem_cons_self _ _)
    have hv0 : 0 ≤ r * (σ:ℚ) / 2 + 1/2 ∧ r * (σ:ℚ) / 2 + 1/2 ≤ 1 := by
      rcases hσ0 with rfl | rfl
      · constructor <;> · push_cast; linarith
      · constructor <;> · push_cast; linarith
    rw [show backupValues r (σ :: rest) =
        (r * (σ:ℚ) / 2 + 1/2) :: backupValues (r * (σ:ℚ) / 2 + 1/2) rest from rfl] at hv
    rcases List.mem_cons.1 hv with rfl | hv2
    · exact hv0
    · exact ih (r * (σ:ℚ) / 2 + 1/2) (by linarith [hv0.1]) hv0.2
        (fun τ hτ => hσ τ (List.mem_cons_of_mem _ hτ)) v hv2

theorem backup_bounds (path : List (PyVal × Int)) :
    ∀ (r : ℚ) (res samp : Dict), -1 ≤ r → r ≤ 1 →
      (∀ p ∈ path, p.2 = 1 ∨ p.2 = -1) →
      (∀ key, 0 ≤ dget res key ∧ dget res key ≤ dget samp key) →
      ∀ key, 0 ≤ dget (backup path r res samp).1 key ∧
        dget (backup path r res samp).1 key ≤ dget (backup path r res samp).2 key := by
  induction path with
  | nil => intro r res samp _ _ _ hinv key; simpa [backup] using hinv key
  | cons e rest ih =>
    obtain ⟨s, σ⟩ := e
    intro r res samp hr1 hr2 hσ hinv key
    have hσ0 : σ = 1 ∨ σ = -1 := by
      have := hσ (s, σ) (List.mem_cons_self _ _)
      simpa using this
    have hv0 : 0 ≤ r * (σ:ℚ) / 2 + 1/2 ∧ r * (σ:ℚ) / 2 + 1/2 ≤ 1 := by
      rcases hσ0 with rfl | rfl
      · constructor <;> · push_cast; linarith
      · constructor <;> · push_cast; linarith
    rw [show backup ((s, σ) :: rest) r res samp =
        backup rest (r * (σ:ℚ) / 2 + 1/2) (dincr res s (r * (σ:ℚ) / 2 + 1/2))
          (dincr samp s 1) from rfl]
    refine ih (r * (σ:ℚ) / 2 + 1/2) _ _ (by linarith [hv0.1]) hv0.2
      (fun p hp => hσ p (List.mem_cons_of_mem _ hp)) ?_ key
    intro q
    rw [dget_dincr, dget_dincr]
    have hq := hinv q
    by_cases hqs : q = s
    · subst hqs
      simp only [eq_self_iff_true, if_true, ite_true, if_pos rfl]
      constructor <;> linarith [hq.1, hq.2, hv0.1, hv0.2]
    · simp only [hqs, if_false]
      constructor <;> linarith [hq.1, hq.2]

theorem uctDescend_bounds (g : GameSpec) (samp : Dict)
    (hwin : ∀ s v, g.has_winner s = some v → -1 ≤ v ∧ v ≤ 1) :
    ∀ (fuel : ℕ) (s : PyVal) (side : Int) (first : Bool) (path : List (PyVal × Int))
      (rng : List ℕ) (out : Int × List (PyVal × Int) × List ℕ),
      uctDescend g samp fuel s side first path rng = some out →
      (side = 1 ∨ side = -1) →
      (∀ p ∈ path, p.2 = 1 ∨ p.2 = -1) →
      (-1 ≤ out.1 ∧ out.1 ≤ 1) ∧ ∀ p ∈ out.2.1, p.2 = 1 ∨ p.2 = -1 := by
  intro fuel
  induction fuel with
  | zero => intro s side first path rng out h _ _; simp [uctDescend] at h
  | succ n ih =>
    intro s side first path rng out h hside hpath
    rw [uctDescend] at h
    by_cases hempty : (mkMoveStates g s side).isEmpty
    · rw [if_pos hempty] at h
      simp only [Option.some.injEq] at h
      rw [← h]
      exact ⟨by norm_num, hpath⟩
    · rw [if_neg hempty] at h
      cases hcond : evalAllCond samp ((mkMoveStates g s side).map Prod.fst) with
      | none => rw [hcond] at h; exact absurd h (by simp)
      | some b =>
        cases b with
        | true => rw [hcond] at h; exact absurd h (by simp)
        | false =>
          rw [hcond] at h
          simp only at h
          set mv := pyChoice ((mkMoveStates g s side).map Prod.fst) (rng.headD 0) with hmv
          set child := msLookup (mkMoveStates g s side) mv with hchild
          set path' := if first then path ++ [(child, side)] else path with hpath'
          have hpath'3 : ∀ p ∈ path', p.2 = 1 ∨ p.2 = -1 := by
            rw [hpath']
            by_cases hf : first
            · rw [if_pos hf]
              intro p hp
              rcases List.mem_append.1 hp with h2 | h2
              · exact hpath p h2
              · simp only [List.mem_singleton] at h2
                rw [h2]
                exact hside
            · rw [if_neg hf]
              exact hpath
          cases hw : g.has_winner child with
          | some result =>
            rw [hw] at h
            simp only [Option.some.injEq] at h
            rw [← h]
            refine ⟨?_, hpath'3⟩
            have := hwin child result hw
            simpa using this
          | none =>
            rw [hw] at h
            refine ih child (-side) (first && dmem samp child) path' rng.tail out h ?_ hpath'3
            rcases hside with rfl | rfl
            · right; rfl
            · left; rfl

theorem uctLoop_inv (g : GameSpec) (fuel : ℕ) (root : PyVal) (side : Int)
    (hside : side = 1 ∨ side = -1)
    (hwin : ∀ s v, g.has_winner s = some v → -1 ≤ v ∧ v ≤ 1) :
    ∀ (N : ℕ) (res samp : Dict) (rng : List ℕ) (out : Dict × Dict × List ℕ),
      uctLoop g fuel root side N res samp rng = some out →
      (∀ key, 0 ≤ dget res key ∧ dget res key ≤ dget samp key) →
      ∀ key, 0 ≤ dget out.1 key ∧ dget out.1 key ≤ dget out.2.1 key := by
  intro N
  induction N with
  | zero =>
    intro res samp rng out h hinv
    simp only [uctLoop, Option.some.injEq] at h
    rw [← h]
    exact hinv
  | succ n ih =>
    intro res samp rng out h hinv
    rw [uctLoop] at h
    cases hdes : uctDescend g samp fuel root side true [] rng with
    | none => rw [hdes] at h; exact absurd h (by simp)
    | some t =>
      obtain ⟨r, path, rng2⟩ := t
      rw [hdes] at h
      simp only at h
      have hb := uctDescend_bounds g samp hwin fuel root side true [] rng (r, path, rng2)
        hdes hside (by simp)
      refine ih _ _ _ _ h ?_
      refine backup_bounds path (r:ℚ) res samp ?_ ?_ hb.2 hinv
      · exact_mod_cast hb.1.1
      · exact_mod_cast hb.1.2

theorem flatLoop_terminal (g : GameSpec) (n0 : ℕ) (root : PyVal) (side : Int) (r : Int)
    (hw : g.has_winner root = some r) :
    ∀ (k : ℕ) (w p : ℚ) (rng : List ℕ),
      flatLoop g (n0 + 1) root side k (if r = side then [(PyVal.pynone, w)] else [])
          [(PyVal.pynone, p)] (some PyVal.pynone) rng =
        some ((if r = side then [(PyVal.pynone, w + k)] else []),
          [(PyVal.pynone, p + k)], some PyVal.pynone, rng) := by
  intro k
  induction k with
  | zero =>
    intro w p rng
    simp [flatLoop]
  | succ n ih =>
    intro w p rng
    rw [flatLoop]
    rw [show _monte_carlo_sample g (n0 + 1) root side rng = some (r, PyVal.pynone, rng) by
      rw [_monte_carlo_sample, hw]]
    simp only
    by_cases hr : r = side
    · rw [show (if r = side then
          dincr (if r = side then [(PyVal.pynone, w)] else []) PyVal.pynone 1
          else (if r = side then [(PyVal.pynone, w)] else [])) =
          (if r = side then [(PyVal.pynone, w + 1)] else []) by simp [hr, dincr]]
      rw [show dincr [(PyVal.pynone, p)] PyVal.pynone 1 = [(PyVal.pynone, p + 1)] by
        simp [dincr]]
      rw [ih (w + 1) (p + 1) rng]
      have hsum1 : w + 1 + (n:ℚ) = w + ((n:ℕ) + 1 : ℕ) := by push_cast; ring
      have hsum2 : p + 1 + (n:ℚ) = p + ((n:ℕ) + 1 : ℕ) := by push_cast; ring
      rw [hsum1, hsum2]
    · rw [show (if r = side then
          dincr (if r = side then [(PyVal.pynone, w)] else []) PyVal.pynone 1
          else (if r = side then [(PyVal.pynone, w)] else [])) =
          (if r = side then [(PyVal.pynone, w + 1)] else []) by simp [hr]]
      rw [show dincr [(PyVal.pynone, p)] PyVal.pynone 1 = [(PyVal.pynone, p + 1)] by
        simp [dincr]]
      rw [ih (w + 1) (p + 1) rng]
      have hsum1 : w + 1 + (n:ℚ) = w + ((n:ℕ) + 1 : ℕ) := by push_cast; ring
      have hsum2 : p + 1 + (n:ℚ) = p + ((n:ℕ) + 1 : ℕ) := by push_cast; ring
      rw [hsum1, hsum2]

section RatReducible
attribute [local semireducible] Rat.add Rat.mul Rat.inv Rat.sub Rat.ofScientific

/-! ### Claim theorems -/

theorem mkMoveStates_fst (g : GameSpec) (s : PyVal) (side : Int) :
    (mkMoveStates g s side).map Prod.fst = dedupFirst (g.available_moves s) := by
  have h : ∀ l : List PyVal, l.map (Prod.fst ∘ fun m => (m, g.apply_move s m side)) = l := by
    intro l
    induction l with
    | nil => rfl
    | cons x xs ih => simp only [List.map_cons, ih]; rfl
  simp only [mkMoveStates, List.map_map]
  exact h _

/-- C1: contrary to the claim, when every child state of the current decision
point already has an entry in `state_samples`, the descent of
`monte_carlo_tree_search_uct` still selects the move at random: the line-115
guard iterates the KEYS of `move_states` (the moves) and tuple-unpacks each
of them, so it tests the move's second coordinate — not the child state —
for membership in `state_samples`.  Concretely, with both children `g1sA`,
`g1sB` of the root `g1s0` sampled, the guard evaluates to `False` (second
conjunct: every child state IS in `state_samples`), and the descent step
takes the `random.choice` branch, returning the child of the randomly chosen
first move. -/
theorem uct_descend_ignores_child_visits :
    evalAllCond [(g1sA, 1), (g1sB, 1)] ((mkMoveStates G1 g1s0 1).map Prod.fst) = some false ∧
    ((mkMoveStates G1 g1s0 1).map Prod.fst).all
      (fun m => dmem [(g1sA, 1), (g1sB, 1)] (G1.apply_move g1s0 m 1)) = true ∧
    uctDescend G1 [(g1sA, 1), (g1sB, 1)] 5 g1s0 1 true [] [0] =
      some (1, [(g1sA, 1)], []) :=
  ⟨by decide, by decide, by decide⟩

/-- C2: a concrete 6-rollout flat search on `G2` where move `g2a` records 2
wins out of 5 samples (win rate 2/5) while move `g2b` records 1 win out of 1
sample (win rate 1): the code returns move `g2a` — the larger RAW win count —
with confidence 2/5, because line 70 divides every candidate's win count by
the constant `move_samples[move]` of the leftover loop variable (the last
rollout's move) instead of by the candidate's own sample count; the claimed
`wins/samples` maximizer is `g2b` (third conjunct). -/
theorem flat_selection_maximizes_raw_wins_not_rate :
    flatLoop G2 10 (PyVal.pyint 0) 1 6 [] [] none [0,0,0,0,0,1,0,1,0,1,1] =
      some ([(g2a, 2), (g2b, 1)], [(g2a, 5), (g2b, 1)], some g2b, []) ∧
    monte_carlo_tree_search G2 10 (PyVal.pyint 0) 1 6 [0,0,0,0,0,1,0,1,0,1,1] =
      some (2/5, g2a) ∧
    dget [(g2a, 2), (g2b, 1)] g2a / dget [(g2a, 5), (g2b, 1)] g2a <
      dget [(g2a, 2), (g2b, 1)] g2b / dget [(g2a, 5), (g2b, 1)] g2b :=
  ⟨by decide, by decide, by decide⟩

/-- C3 counterexample: a real two-iteration UCT run on `G3` whose second
iteration backs the terminal result `-1` up along the rollout path
`[(g3C1, +1), (g3C2, -1)]`.  The value added to `state_results[g3C2]` is
`1/2` — the backup reuses the running value mutated at the first entry — and
not `(result * path_side) / 2 + 0.5 = (-1 * -1) / 2 + 0.5 = 1` as the claim
computes independently from the original terminal result. -/
theorem backup_second_entry_not_independent :
    uctLoop G3 10 g3R 1 2 [] [] [0,0,0,0] =
      some ([(g3C1, 0), (g3C2, 1/2)], [(g3C1, 2), (g3C2, 1)], []) ∧
    backup [(g3C1, 1), (g3C2, -1)] (-1) [(g3C1, 0)] [(g3C1, 1)] =
      ([(g3C1, 0), (g3C2, 1/2)], [(g3C1, 2), (g3C2, 1)]) ∧
    ¬ dget (backup [(g3C1, 1), (g3C2, -1)] (-1) [(g3C1, 0)] [(g3C1, 1)]).1 g3C2 =
        ((-1:ℚ) * (-1)) / 2 + 1/2 :=
  ⟨by decide, by decide, by decide⟩

/-- C3 (amended): in the backup loop, each rollout-path entry increments
`state_samples[path_state]` by exactly 1 — so a key's total increment is its
occurrence count in the path — and the values added to `state_results` are
the successive values of the RUNNING transform `v := v * path_side / 2 + 0.5`
seeded with the terminal result (`backupValues`), each entry adding the value
aligned with its position; only the first entry's value equals
`(result * path_side) / 2 + 0.5` computed from the original terminal
result. -/
theorem backup_increments_and_running_values (path : List (PyVal × Int)) (r : ℚ)
    (state_results state_samples : Dict) (key : PyVal) :
    dget (backup path r state_results state_samples).2 key =
      dget state_samples key + ((path.filter (fun p => p.1 == key)).length : ℚ) ∧
    dget (backup path r state_results state_samples).1 key =
      dget state_results key +
        ((((path.map Prod.fst).zip (backupValues r (path.map Prod.snd))).filter
            (fun p => p.1 == key)).map Prod.snd).sum :=
  backup_dget path r state_results state_samples key

/-- C4 counterexample: with `number_of_samples = 0` on the non-terminal root
`g1s0`, which has two legal moves, `monte_carlo_tree_search_uct` reaches the
final selection with empty statistics; the guarded ranking succeeds (scores
`0 / 10e3`), the argmax picks the first move, but the line-147 confidence
`state_results[child] / state_samples[child]` divides by the chosen child's
zero sample count and raises `ZeroDivisionError` — the call does not
return. -/
theorem uct_zero_samples_confidence_divides_by_zero :
    G1.has_winner g1s0 = none ∧ G1.available_moves g1s0 ≠ [] ∧
    monte_carlo_tree_search_uct G1 5 g1s0 1 0 [] = none :=
  ⟨by decide, by decide, by decide⟩

/-- C4 (amended): the final-selection RANKING of `monte_carlo_tree_search_uct`
never divides by zero — the guarded denominator (the child's sample count,
or the fixed divisor `10e3` when that count is not positive) is always
positive — and whenever the argmax lands on a move whose child state has a
positive sample count, the call's last line returns the well-defined
confidence `state_results[child] / state_samples[child]` paired with that
move; only when the chosen child has zero samples (e.g. with
`number_of_samples = 0`) does the unguarded confidence division raise. -/
theorem uct_final_selection_division_guard :
    (∀ (state_samples : Dict) (c : PyVal),
      0 < (if 0 < dget state_samples c then dget state_samples c else (10000:ℚ))) ∧
    ∀ (g : GameSpec) (root : PyVal) (side : Int) (state_results state_samples : Dict)
      (m : PyVal),
      argmaxBy (uctScore state_results state_samples (mkMoveStates g root side))
          ((mkMoveStates g root side).map Prod.fst) = some m →
      0 < dget state_samples (msLookup (mkMoveStates g root side) m) →
      uctFinalSelect g root side state_results state_samples =
        some (dget state_results (msLookup (mkMoveStates g root side) m) /
          dget state_samples (msLookup (mkMoveStates g root side) m), m) := by
  constructor
  · intro samp c
    by_cases h : 0 < dget samp c
    · rw [if_pos h]; exact h
    · rw [if_neg h]; norm_num
  · intro g root side res samp m hmax hpos
    simp only [uctFinalSelect]
    rw [hmax]
    simp [pydiv, ne_of_gt hpos]

/-- Witness for C4 (amended): after one iteration on `G1` the statistics are
`{g1sA: 1}`, the argmax picks `g1mA`, its child has one sample, and the final
selection returns confidence `1/1` with move `g1mA`. -/
theorem uct_final_selection_division_guard_witness :
    argmaxBy (uctScore [(g1sA, 1)] [(g1sA, 1)] (mkMoveStates G1 g1s0 1))
        ((mkMoveStates G1 g1s0 1).map Prod.fst) = some g1mA ∧
    (0:ℚ) < dget [(g1sA, 1)] (msLookup (mkMoveStates G1 g1s0 1) g1mA) ∧
    uctFinalSelect G1 g1s0 1 [(g1sA, 1)] [(g1sA, 1)] =
      some (dget [(g1sA, 1)] (msLookup (mkMoveStates G1 g1s0 1) g1mA) /
        dget [(g1sA, 1)] (msLookup (mkMoveStates G1 g1s0 1) g1mA), g1mA) :=
  ⟨by decide, by decide,
    uct_final_selection_division_guard.2 G1 g1s0 1 [(g1sA, 1)] [(g1sA, 1)] g1mA
      (by decide) (by decide)⟩

/-- C5: for a non-terminal root with at least one legal move and at least one
sample, any move the flat search returns and any move the UCT search returns
is a member of the root's legal moves. -/
theorem search_returns_legal_move (g : GameSpec) (fuel : ℕ) (root : PyVal)
    (side : Int) (N : ℕ) (rng rngB : List ℕ) (c cB : ℚ) (m mB : PyVal)
    (hterm : g.has_winner root = none) (hmoves : g.available_moves root ≠ [])
    (hN : 1 ≤ N) :
    (monte_carlo_tree_search g fuel root side N rng = some (c, m) →
      m ∈ g.available_moves root) ∧
    (monte_carlo_tree_search_uct g fuel root side N rngB = some (cB, mB) →
      mB ∈ g.available_moves root) := by
  constructor
  · intro h
    rw [monte_carlo_tree_search] at h
    cases hloop : flatLoop g fuel root side N [] [] none rng with
    | none => rw [hloop] at h; exact absurd h (by simp)
    | some out =>
      obtain ⟨wins, samples, lm, rngE⟩ := out
      rw [hloop] at h
      simp only at h
      have hkeys := flatLoop_keys g fuel root side hterm hmoves N [] [] none rng
        (wins, samples, lm, rngE) hloop (by simp [dkeys]) (by simp [dkeys])
      rw [flatFinish.eq_def] at h
      by_cases hwe : wins.isEmpty
      · rw [if_pos hwe] at h
        cases hmin : argminBy (fun q => dget samples q) (dkeys samples) with
        | none => rw [hmin] at h; exact absurd h (by simp)
        | some m0 =>
          rw [hmin] at h
          simp only at h
          cases hd : pydiv (dget wins m0) (dget samples m0) with
          | none => rw [hd] at h; exact absurd h (by simp)
          | some cv =>
            rw [hd] at h
            simp only [Option.map_some', Option.some.injEq, Prod.mk.injEq] at h
            rw [← h.2]
            exact hkeys.2 m0 (argminBy_mem _ _ _ hmin)
      · rw [if_neg hwe] at h
        cases lm with
        | none => exact absurd h (by simp)
        | some lmv =>
          simp only at h
          by_cases hz : dget samples lmv = 0
          · rw [if_pos hz] at h; exact absurd h (by simp)
          · rw [if_neg hz] at h
            cases hmax : argmaxBy (fun x => dget wins x / dget samples lmv) (dkeys wins) with
            | none => rw [hmax] at h; exact absurd h (by simp)
            | some m0 =>
              rw [hmax] at h
              simp only at h
              cases hd : pydiv (dget wins m0) (dget samples m0) with
              | none => rw [hd] at h; exact absurd h (by simp)
              | some cv =>
                rw [hd] at h
                simp only [Option.map_some', Option.some.injEq, Prod.mk.injEq] at h
                rw [← h.2]
                exact hkeys.1 m0 (argmaxBy_mem _ _ _ hmax)
  · intro h
    rw [monte_carlo_tree_search_uct] at h
    cases hloop : uctLoop g fuel root side N [] [] rngB with
    | none => rw [hloop] at h; exact absurd h (by simp)
    | some out =>
      obtain ⟨res, samp, rngE⟩ := out
      rw [hloop] at h
      simp only [uctFinalSelect] at h
      cases hmax : argmaxBy (uctScore res samp (mkMoveStates g root side))
          ((mkMoveStates g root side).map Prod.fst) with
      | none => rw [hmax] at h; exact absurd h (by simp)
      | some m0 =>
        rw [hmax] at h
        simp only at h
        cases hd : pydiv (dget res (msLookup (mkMoveStates g root side) m0))
            (dget samp (msLookup (mkMoveStates g root side) m0)) with
        | none => rw [hd] at h; exact absurd h (by simp)
        | some cv =>
          rw [hd] at h
          simp only [Option.map_some', Option.some.injEq, Prod.mk.injEq] at h
          rw [← h.2]
          have hmem := argmaxBy_mem _ _ _ hmax
          rw [mkMoveStates_fst] at hmem
          exact dedupFirst_subset _ _ hmem

/-- Witness for C5: on `G1` with one sample, both searches return the legal
move `g1mA`. -/
theorem search_returns_legal_move_witness :
    G1.has_winner g1s0 = none ∧ G1.available_moves g1s0 ≠ [] ∧ (1:ℕ) ≤ 1 ∧
    g1mA ∈ G1.available_moves g1s0 :=
  ⟨by decide, by decide, le_refl 1,
    (search_returns_legal_move G1 5 g1s0 1 1 [0] [0] 1 1 g1mA g1mA (by decide) (by decide)
      (le_refl 1)).1 (by decide)⟩

/-- C6: every value the backup of `monte_carlo_tree_search_uct` adds to
`state_results` lies in `[0,1]` — the running backup values stay in `[0,1]`
for a terminal result in `[-1,1]` and `±1` path sides — and consequently
`0 ≤ state_results[key] ≤ state_samples[key]` holds for every key after any
number of search iterations started from empty tables. -/
theorem uct_backup_values_normalized :
    (∀ (sides : List Int) (r : ℚ), -1 ≤ r → r ≤ 1 →
      (∀ σ ∈ sides, σ = 1 ∨ σ = -1) →
      ∀ v ∈ backupValues r sides, 0 ≤ v ∧ v ≤ 1) ∧
    ∀ (g : GameSpec) (fuel : ℕ) (root : PyVal) (side : Int) (N : ℕ) (rng : List ℕ)
      (out : Dict × Dict × List ℕ),
      (side = 1 ∨ side = -1) →
      (∀ s v, g.has_winner s = some v → -1 ≤ v ∧ v ≤ 1) →
      uctLoop g fuel root side N [] [] rng = some out →
      ∀ key, 0 ≤ dget out.1 key ∧ dget out.1 key ≤ dget out.2.1 key := by
  constructor
  · exact backupValues_bounds
  · intro g fuel root side N rng out hside hwin h key
    exact uctLoop_inv g fuel root side hside hwin N [] [] rng out h
      (by intro k; simp [dget]) key

/-- Witness for C6: the two-iteration run on `G3`; at key `g3C2` the results
total `1/2` lies between `0` and the sample count `1`. -/
theorem uct_backup_values_normalized_witness :
    ((1:Int) = 1 ∨ (1:Int) = -1) ∧
    uctLoop G3 10 g3R 1 2 [] [] [0,0,0,0] =
      some ([(g3C1, 0), (g3C2, 1/2)], [(g3C1, 2), (g3C2, 1)], []) ∧
    (0 ≤ dget [(g3C1, 0), (g3C2, (1:ℚ)/2)] g3C2 ∧
      dget [(g3C1, 0), (g3C2, (1:ℚ)/2)] g3C2 ≤ dget [(g3C1, 2), (g3C2, 1)] g3C2) :=
  ⟨Or.inl rfl, by decide,
    uct_backup_values_normalized.2 G3 10 g3R 1 2 [0,0,0,0]
      ([(g3C1, 0), (g3C2, 1/2)], [(g3C1, 2), (g3C2, 1)], []) (Or.inl rfl)
      (by
        intro s v hv
        by_cases hs : s = g3C2
        · rw [show G3.has_winner s = some (-1) by simp [G3, hs]] at hv
          injection hv with hv2
          rw [← hv2]
          exact ⟨le_refl _, by norm_num⟩
        · rw [show G3.has_winner s = none by simp [G3, hs]] at hv
          exact absurd hv (by simp))
      (by decide) g3C2⟩

/-- C7: the flat search falls back to the least-sampled move exactly when no
rollout recorded a win: after the loop, `move_wins` is empty iff every move's
win count is zero; in that case the returned move has the minimal sample
count among the sampled moves and the returned confidence is 0; when some
rollout did win, the selected move has a positive win count (so the
least-sampled fallback is used only when ALL moves have zero wins). -/
theorem flat_fallback_least_sampled (g : GameSpec) (fuel : ℕ) (root : PyVal)
    (side : Int) (N : ℕ) (rng : List ℕ) (wins samples : Dict) (lm : Option PyVal)
    (rngE : List ℕ)
    (h : flatLoop g fuel root side N [] [] none rng = some (wins, samples, lm, rngE)) :
    (wins = [] ↔ ∀ k, dget wins k = 0) ∧
    (wins = [] → ∀ c m, flatFinish wins samples lm = some (c, m) →
      c = 0 ∧ m ∈ dkeys samples ∧ ∀ x ∈ dkeys samples, dget samples m ≤ dget samples x) ∧
    (wins ≠ [] → ∀ c m, flatFinish wins samples lm = some (c, m) → 1 ≤ dget wins m) := by
  have hge1 : ∀ p ∈ wins, (1:ℚ) ≤ p.2 :=
    flatLoop_wins_ge_one g fuel root side N [] [] none rng (wins, samples, lm, rngE) h
      (by simp)
  refine ⟨?_, ?_, ?_⟩
  · constructor
    · intro hw k
      rw [hw]
      simp [dget]
    · intro hall
      cases hwc : wins with
      | nil => rfl
      | cons q rest =>
        exfalso
        obtain ⟨k0, v0⟩ := q
        have h1 : (1:ℚ) ≤ v0 := by
          have := hge1 (k0, v0) (by rw [hwc]; exact List.mem_cons_self _ _)
          simpa using this
        have h0 : dget wins k0 = 0 := hall k0
        rw [hwc, dget_head] at h0
        rw [h0] at h1
        norm_num at h1
  · intro hw c m hf
    subst hw
    rw [flatFinish.eq_def] at hf
    simp only [List.isEmpty_nil, if_true] at hf
    cases hmin : argminBy (fun q => dget samples q) (dkeys samples) with
    | none => rw [hmin] at hf; exact absurd hf (by simp)
    | some m0 =>
      rw [hmin] at hf
      simp only at hf
      by_cases hz : dget samples m0 = 0
      · rw [show pydiv (dget [] m0) (dget samples m0) = none by simp [pydiv, hz]] at hf
        exact absurd hf (by simp)
      · rw [show pydiv (dget [] m0) (dget samples m0) = some 0 by
          simp [pydiv, hz, dget]] at hf
        simp only [Option.map_some', Option.some.injEq, Prod.mk.injEq] at hf
        obtain ⟨hc, hm⟩ := hf
        subst hm
        exact ⟨hc.symm, argminBy_mem _ _ _ hmin, argminBy_le _ _ _ hmin⟩
  · intro hne c m hf
    have hie : wins.isEmpty = false := by
      cases wins with
      | nil => exact absurd rfl hne
      | cons a l => rfl
    rw [flatFinish.eq_def, hie] at hf
    simp only [Bool.false_eq_true, if_false] at hf
    cases lm with
    | none => exact absurd hf (by simp)
    | some lmv =>
      simp only at hf
      by_cases hz : dget samples lmv = 0
      · rw [if_pos hz] at hf; exact absurd hf (by simp)
      · rw [if_neg hz] at hf
        cases hmax : argmaxBy (fun x => dget wins x / dget samples lmv) (dkeys wins) with
        | none => rw [hmax] at hf; exact absurd hf (by simp)
        | some m0 =>
          rw [hmax] at hf
          simp only at hf
          cases hd : pydiv (dget wins m0) (dget samples m0) with
          | none => rw [hd] at hf; exact absurd hf (by simp)
          | some cv =>
            rw [hd] at hf
            simp only [Option.map_some', Option.some.injEq, Prod.mk.injEq] at hf
            rw [← hf.2]
            exact dget_mem_of_all_ge_one wins hge1 m0 (argmaxBy_mem _ _ _ hmax)

/-- Witness for C7: a two-rollout all-loss run on `G1` for side `-1`; the
fallback branch returns confidence 0 and the sampled move `g1mA`. -/
theorem flat_fallback_least_sampled_witness :
    flatLoop G1 5 g1s0 (-1) 2 [] [] none [0,0] =
      some ([], [(g1mA, 2)], some g1mA, []) ∧
    (0:ℚ) = 0 ∧ g1mA ∈ dkeys [(g1mA, (2:ℚ))] := by
  have H := flat_fallback_least_sampled G1 5 g1s0 (-1) 2 [0,0] [] [(g1mA, 2)]
    (some g1mA) [] (by decide)
  have H2 := H.2.1 rfl 0 g1mA (by decide)
  exact ⟨by decide, H2.1, H2.2.1⟩

/-- C8: `_monte_carlo_sample` returns `(result, None)` at once on a terminal
state, returns `(0, None)` on a non-terminal state with no legal moves, and
otherwise returns the recursive rollout's terminal result paired with the
move chosen at the top of this call — the random choice among the current
legal moves — not the move played at the leaf. -/
theorem sample_terminal_and_stalemate_short_circuit (g : GameSpec) (fuel : ℕ)
    (s : PyVal) (side : Int) (rng : List ℕ) (r : Int) :
    (g.has_winner s = some r →
      _monte_carlo_sample g (fuel + 1) s side rng = some (r, PyVal.pynone, rng)) ∧
    (g.has_winner s = none → g.available_moves s = [] →
      _monte_carlo_sample g (fuel + 1) s side rng = some (0, PyVal.pynone, rng)) ∧
    (∀ res mv rng2, g.has_winner s = none → g.available_moves s ≠ [] →
      _monte_carlo_sample g (fuel + 1) s side rng = some (res, mv, rng2) →
      mv = pyChoice (g.available_moves s) (rng.headD 0) ∧
      ∃ mv2, _monte_carlo_sample g fuel (g.apply_move s mv side) (-side) rng.tail =
        some (res, mv2, rng2)) := by
  refine ⟨?_, ?_, ?_⟩
  · intro h
    rw [_monte_carlo_sample, h]
  · intro h1 h2
    rw [_monte_carlo_sample, h1]
    simp [h2]
  · intro res mv rng2 h1 h2 h3
    rw [_monte_carlo_sample, h1] at h3
    cases hml : g.available_moves s with
    | nil => exact absurd hml h2
    | cons a as =>
      rw [hml] at h3
      simp only [List.isEmpty_cons, Bool.false_eq_true, if_false] at h3
      cases hrec : _monte_carlo_sample g fuel
          (g.apply_move s (pyChoice (a :: as) (rng.headD 0)) side) (-side) rng.tail with
      | none => rw [hrec] at h3; exact absurd h3 (by simp)
      | some t =>
        obtain ⟨r2, mv2, rng3⟩ := t
        rw [hrec] at h3
        simp only [Option.some.injEq, Prod.mk.injEq] at h3
        obtain ⟨hres, hmv, hrng⟩ := h3
        constructor
        · exact hmv.symm
        · refine ⟨mv2, ?_⟩
          rw [← hmv, hrec, hres, hrng]

/-- Witness for C8: on `G1`, the terminal state `g1sA` short-circuits with
`(1, None)`; the stranger state `7` (non-terminal, no moves) returns
`(0, None)`; from the root the returned move is the top-level random
choice. -/
theorem sample_terminal_and_stalemate_short_circuit_witness :
    G1.has_winner g1sA = some 1 ∧
    _monte_carlo_sample G1 3 g1sA 1 [] = some (1, PyVal.pynone, []) ∧
    G1.has_winner (PyVal.pyint 7) = none ∧ G1.available_moves (PyVal.pyint 7) = [] ∧
    _monte_carlo_sample G1 3 (PyVal.pyint 7) 1 [] = some (0, PyVal.pynone, []) ∧
    g1mA = pyChoice (G1.available_moves g1s0) (([0] : List ℕ).headD 0) :=
  ⟨by decide,
    (sample_terminal_and_stalemate_short_circuit G1 2 g1sA 1 [] 1).1 (by decide),
    by decide, by decide,
    (sample_terminal_and_stalemate_short_circuit G1 2 (PyVal.pyint 7) 1 [] 1).2.1
      (by decide) (by decide),
    ((sample_terminal_and_stalemate_short_circuit G1 2 g1s0 1 [0] 1).2.2 1 g1mA []
      (by decide) (by decide) (by decide)).1⟩

/-- C9: the UCB1 exploration bonus `sqrt(2 * ln(total) / n)` — the
`_upper_confidence_bounds` score at payout 0 — is strictly decreasing in the
child's sample count `n` at a fixed total, and strictly increasing in the
total at a fixed `n`, for integers `1 ≤ n ≤ total` with `2 ≤ total`. -/
theorem ucb_bonus_strict_monotone (n1 n2 T n T1 T2 : ℕ) :
    (1 ≤ n1 → n1 < n2 → n2 ≤ T → 2 ≤ T → ucbBonus T n2 < ucbBonus T n1) ∧
    (1 ≤ n → n ≤ T1 → 2 ≤ T1 → T1 < T2 → ucbBonus T1 n < ucbBonus T2 n) := by
  have hbonus : ∀ (total m : ℕ), ucbBonus total m = Real.sqrt (2 * Real.log total / m) := by
    intro total m
    simp [ucbBonus, _upper_confidence_bounds]
  constructor
  · intro h1 h2 h3 h4
    rw [hbonus, hbonus]
    have hT : (1:ℝ) < (T:ℝ) := by exact_mod_cast lt_of_lt_of_le one_lt_two h4
    have hlog : 0 < Real.log T := Real.log_pos hT
    have hval : 0 < 2 * Real.log T := by linarith
    have hn1 : (0:ℝ) < (n1:ℝ) := by exact_mod_cast h1
    have hn2 : (0:ℝ) < (n2:ℝ) := by
      have : (0:ℕ) < n2 := lt_of_lt_of_le h1 (le_of_lt h2)
      exact_mod_cast this
    have hlt : (n1:ℝ) < (n2:ℝ) := by exact_mod_cast h2
    have key : 2 * Real.log T / (n2:ℝ) < 2 * Real.log T / (n1:ℝ) :=
      div_lt_div_of_pos_left hval hn1 hlt
    exact Real.sqrt_lt_sqrt (div_nonneg (le_of_lt hval) (le_of_lt hn2)) key
  · intro h1 h2 h3 h4
    rw [hbonus, hbonus]
    have hT1 : (1:ℝ) < (T1:ℝ) := by exact_mod_cast lt_of_lt_of_le one_lt_two h3
    have hT1pos : (0:ℝ) < (T1:ℝ) := lt_trans zero_lt_one hT1
    have hTT : (T1:ℝ) < (T2:ℝ) := by exact_mod_cast h4
    have hlog : Real.log T1 < Real.log T2 := Real.log_lt_log hT1pos hTT
    have hlog1 : 0 < Real.log T1 := Real.log_pos hT1
    have hn : (0:ℝ) < (n:ℝ) := by exact_mod_cast h1
    have key : 2 * Real.log T1 / (n:ℝ) < 2 * Real.log T2 / (n:ℝ) :=
      (div_lt_div_iff_of_pos_right hn).2 (by linarith)
    exact Real.sqrt_lt_sqrt
      (div_nonneg (by linarith) (le_of_lt hn)) key

/-- Witness for C9: `ucbBonus 2 2 < ucbBonus 2 1` and
`ucbBonus 2 1 < ucbBonus 3 1`. -/
theorem ucb_bonus_strict_monotone_witness :
    ((1:ℕ) ≤ 1 ∧ 1 < 2 ∧ 2 ≤ 2 ∧ 2 ≤ 2 ∧ ucbBonus 2 2 < ucbBonus 2 1) ∧
    ((1:ℕ) ≤ 1 ∧ 1 ≤ 2 ∧ 2 ≤ 2 ∧ 2 < 3 ∧ ucbBonus 2 1 < ucbBonus 3 1) :=
  ⟨⟨le_refl 1, by decide, le_refl 2, le_refl 2,
    (ucb_bonus_strict_monotone 1 2 2 1 2 3).1 (le_refl 1) (by decide) (le_refl 2)
      (le_refl 2)⟩,
   ⟨le_refl 1, by decide, le_refl 2, by decide,
    (ucb_bonus_strict_monotone 1 2 2 1 2 3).2 (le_refl 1) (by decide) (le_refl 2)
      (by decide)⟩⟩

/-- C10: on a root the game model reports terminal with result `r`, every
rollout of the flat search returns `(r, None)`, both statistics tables end
keyed by `None` alone (`move_samples = {None: N}`, and `move_wins = {None: N}`
exactly when `r = side`, else empty), the search does not raise, and it
returns `(k/N, None)` where `k` is the number of rollouts whose result equals
`side` (`N` when `r = side`, else `0`). -/
theorem flatFinish_single_win (v : ℚ) (hv : v ≠ 0) :
    flatFinish [(PyVal.pynone, v)] [(PyVal.pynone, v)] (some PyVal.pynone) =
      some (v / v, PyVal.pynone) := by
  rw [flatFinish.eq_def]
  simp only [List.isEmpty_cons, Bool.false_eq_true, if_false]
  rw [show dget [(PyVal.pynone, v)] PyVal.pynone = v from dget_head _ _ _]
  rw [if_neg hv]
  rw [show argmaxBy (fun x => dget [(PyVal.pynone, v)] x / v)
      (dkeys [(PyVal.pynone, v)]) = some PyVal.pynone by simp [argmaxBy, dkeys]]
  simp only
  rw [show dget [(PyVal.pynone, v)] PyVal.pynone = v from dget_head _ _ _]
  rw [pydiv, if_neg hv]
  rfl

theorem flatFinish_single_loss (v : ℚ) (hv : v ≠ 0) :
    flatFinish [] [(PyVal.pynone, v)] (some PyVal.pynone) =
      some (0 / v, PyVal.pynone) := by
  rw [flatFinish.eq_def]
  simp only [List.isEmpty_nil, if_true]
  rw [show argminBy (fun m => dget [(PyVal.pynone, v)] m)
      (dkeys [(PyVal.pynone, v)]) = some PyVal.pynone by simp [argminBy, dkeys]]
  simp only
  rw [show dget ([] : Dict) PyVal.pynone = 0 from rfl]
  rw [show dget [(PyVal.pynone, v)] PyVal.pynone = v from dget_head _ _ _]
  rw [pydiv, if_neg hv]
  rfl

theorem flat_terminal_root_returns_none_move (g : GameSpec) (n0 : ℕ) (root : PyVal)
    (side r : Int) (N : ℕ) (rng : List ℕ)
    (hw : g.has_winner root = some r) (hN : 1 ≤ N) :
    flatLoop g (n0 + 1) root side N [] [] none rng =
      some ((if r = side then [(PyVal.pynone, (N:ℚ))] else []),
        [(PyVal.pynone, (N:ℚ))], some PyVal.pynone, rng) ∧
    monte_carlo_tree_search g (n0 + 1) root side N rng =
      some ((if r = side then (N:ℚ) else 0) / (N:ℚ), PyVal.pynone) := by
  obtain ⟨n, rfl⟩ : ∃ n, N = n + 1 := ⟨N - 1, by omega⟩
  have hNpos : (0:ℚ) < ((n + 1 : ℕ) : ℚ) := by exact_mod_cast Nat.succ_pos n
  have hNne : ((n + 1 : ℕ) : ℚ) ≠ 0 := ne_of_gt hNpos
  have hloop : flatLoop g (n0 + 1) root side (n + 1) [] [] none rng =
      some ((if r = side then [(PyVal.pynone, ((n + 1 : ℕ) : ℚ))] else []),
        [(PyVal.pynone, ((n + 1 : ℕ) : ℚ))], some PyVal.pynone, rng) := by
    rw [flatLoop]
    rw [show _monte_carlo_sample g (n0 + 1) root side rng = some (r, PyVal.pynone, rng) by
      rw [_monte_carlo_sample, hw]]
    simp only
    rw [show (if r = side then dincr [] PyVal.pynone 1 else ([] : Dict)) =
        (if r = side then [(PyVal.pynone, (1:ℚ))] else []) by
      by_cases hr : r = side <;> simp [hr, dincr]]
    rw [show dincr [] PyVal.pynone 1 = [(PyVal.pynone, (1:ℚ))] from rfl]
    rw [flatLoop_terminal g n0 root side r hw n 1 1 rng]
    have hc : (1:ℚ) + (n:ℚ) = ((n + 1 : ℕ) : ℚ) := by push_cast; ring
    rw [hc]
  refine ⟨hloop, ?_⟩
  rw [monte_carlo_tree_search, hloop]
  simp only
  by_cases hr : r = side
  · simp only [if_pos hr]
    exact flatFinish_single_win _ hNne
  · simp only [if_neg hr]
    exact flatFinish_single_loss _ hNne

/-- Witness for C10: the terminal root `g1sA` (winner `+1`) with two samples
for side `+1` returns `(1, None)`. -/
theorem flat_terminal_root_returns_none_move_witness :
    G1.has_winner g1sA = some 1 ∧ (1:ℕ) ≤ 2 ∧
    monte_carlo_tree_search G1 1 g1sA 1 2 [] = some (1, PyVal.pynone) := by
  refine ⟨by decide, by decide, ?_⟩
  have h := (flat_terminal_root_returns_none_move G1 0 g1sA 1 1 2 [] (by decide)
    (by decide)).2
  norm_num at h
  exact h

end RatReducible
